import Mathlib

/-!
SD file server (`sd_file_server`): path resolution, upload gate, download streaming.

A shallow embedding of `src/components/sd_mmc_card/sd_mmc_card.cpp`.

* A `std::string` is the list of its characters (`Str`).
* `size_t` values are natural numbers; no arithmetic in the modelled code can wrap.
* `std::string::substr` throws `std::out_of_range` when the start position lies
  past the end of the string: the embedding returns `none` there.
* The storage driver (`sd_mmc_card_`) and the HTTP request are external: the
  driver's `is_directory` answer is a field of the server, and the calls the
  handler makes (`send`, `write_file`, `append_file`) are returned as a trace.
* The C stream behind a download is a record holding the file's bytes, the
  sequential cursor, and counters of the `fread` and `fclose` calls made on it.
-/

namespace esphome.sd_file_server

/-- The characters of a `std::string`. -/
abbrev Str := List Char

/-- One byte of file data (`uint8_t`). -/
abbrev Byte := UInt8

/-! ## `std::string` primitives -/

/-- The call `s.find(c)`: index of the first occurrence, `none` for `npos`. -/
def find (c : Char) : Str → Option Nat
  | [] => none
  | x :: xs => if x = c then some 0 else (find c xs).map (· + 1)

/-- The call `s.find_last_of(c)`: index of the last occurrence, `none` for `npos`. -/
def find_last_of (c : Char) : Str → Option Nat
  | [] => none
  | x :: xs =>
    match find_last_of c xs with
    | some p => some (p + 1)
    | none => if x = c then some 0 else none

/-- The call `s.substr(pos, n)`: throws (here `none`) when `pos > s.size()`. -/
def substr_n (s : Str) (pos n : Nat) : Option Str :=
  if pos > s.length then none else some ((s.drop pos).take n)

/-- Modelled from the spec: `str_startswith` of `esphome/core/helpers.h`, which is not
part of the sources; `remove_root_path` "strips `root` prefix from `storage_path`", so
the helper tests whether `str` begins with `start`. -/
def str_startswith (str start : Str) : Bool := start.isPrefixOf str

/-- The function `::tolower` in the C locale. -/
def tolower (c : Char) : Char := c.toLower

/-! ## Path helpers -/

namespace Path

/-- The constant `Path::separator`. -/
def separator : Char := '/'

/-- The function `Path::is_absolute`: `path.size() && path[0] == separator`. -/
def is_absolute (path : Str) : Bool :=
  path.length != 0 && path.head? == some separator

/-- The function `Path::trailing_slash`: `path.size() && path[path.length() - 1] == separator`. -/
def trailing_slash (path : Str) : Bool :=
  path.length != 0 && path.get? (path.length - 1) == some separator

/-- The function `Path::join`. -/
def join (first second : Str) : Str :=
  let result := first
  let result :=
    if !trailing_slash first && !is_absolute second then result ++ [separator] else result
  let result :=
    if trailing_slash first && is_absolute second then result.dropLast else result
  result ++ second

/-- The function `Path::remove_root_path`. -/
def remove_root_path (path root : Str) : Str :=
  if !str_startswith path root then path
  else if path.length == root.length || path.length < 2 then "/".toList
  else path.drop root.length

/-- The loop of `Path::split_path`; `fuel` bounds the number of iterations and `none`
means the bound was hit before the loop left. -/
def split_path_loop : Nat → Str → List Str → Option (List Str)
  | 0, _, _ => none
  | fuel + 1, path, parts =>
    match find '/' path with
    | some pos =>
      let part := path.take pos
      let parts := if part ≠ [] then parts ++ [part] else parts
      split_path_loop fuel (path.drop (pos + 1)) parts
    | none => some (parts ++ [path])

/-- The function `Path::split_path`; every iteration erases at least one character, so
`path.size() + 1` iterations are allowed. -/
def split_path (path : Str) : Option (List Str) :=
  split_path_loop (path.length + 1) path []

/-- Reference for `split_path`, from the `/`-separated fields of the path (empty ones
included, as `List.splitOn` gives them): the non-empty fields among all but the last, and
then the last field, whether empty or not. -/
def split_path_fields (path : Str) : List Str :=
  ((path.splitOn '/').dropLast.filter fun seg => !seg.isEmpty) ++ [(path.splitOn '/').getLastD []]

/-- The function `Path::extension`. -/
def extension (file : Str) : Str :=
  match find_last_of '.' file with
  | none => []
  | some pos => file.drop (pos + 1)

/-- The map `file_types` of `Path::file_type`. -/
def file_type_table : List (Str × Str) :=
  [("mp3".toList, "Audio (MP3)".toList), ("wav".toList, "Audio (WAV)".toList),
   ("png".toList, "Image (PNG)".toList), ("jpg".toList, "Image (JPG)".toList),
   ("jpeg".toList, "Image (JPEG)".toList), ("bmp".toList, "Image (BMP)".toList),
   ("txt".toList, "Text (TXT)".toList), ("log".toList, "Text (LOG)".toList),
   ("csv".toList, "Text (CSV)".toList), ("html".toList, "Web (HTML)".toList),
   ("css".toList, "Web (CSS)".toList), ("js".toList, "Web (JS)".toList),
   ("json".toList, "Data (JSON)".toList), ("xml".toList, "Data (XML)".toList),
   ("zip".toList, "Archive (ZIP)".toList), ("gz".toList, "Archive (GZ)".toList),
   ("tar".toList, "Archive (TAR)".toList), ("mp4".toList, "Video (MP4)".toList),
   ("avi".toList, "Video (AVI)".toList), ("webm".toList, "Video (WEBM)".toList)]

/-- The map `file_types` of `Path::mime_type`. -/
def mime_type_table : List (Str × Str) :=
  [("mp3".toList, "audio/mpeg".toList), ("wav".toList, "audio/vnd.wav".toList),
   ("png".toList, "image/png".toList), ("jpg".toList, "image/jpeg".toList),
   ("jpeg".toList, "image/jpeg".toList), ("bmp".toList, "image/bmp".toList),
   ("txt".toList, "text/plain".toList), ("log".toList, "text/plain".toList),
   ("csv".toList, "text/csv".toList), ("html".toList, "text/html".toList),
   ("css".toList, "text/css".toList), ("js".toList, "text/javascript".toList),
   ("json".toList, "application/json".toList), ("xml".toList, "application/xml".toList),
   ("zip".toList, "application/zip".toList), ("gz".toList, "application/gzip".toList),
   ("tar".toList, "application/x-tar".toList), ("mp4".toList, "video/mp4".toList),
   ("avi".toList, "video/x-msvideo".toList), ("webm".toList, "video/webm".toList)]

/-- The function `Path::file_type`. -/
def file_type (file : Str) : Str :=
  let ext := extension file
  if ext = [] then "File".toList
  else
    let ext := ext.map tolower
    match file_type_table.lookup ext with
    | some label => label
    | none => "File (".toList ++ ext ++ ")".toList

/-- The function `Path::mime_type`. -/
def mime_type (file : Str) : Str :=
  let ext := extension file
  let found :=
    if ext ≠ [] then
      let ext := ext.map tolower
      mime_type_table.lookup ext
    else none
  match found with
  | some mime => mime
  | none => "application/octet-stream".toList

end Path

/-! ## The server -/

/-- The part of the storage driver `sd_mmc_card_` the handlers query. -/
structure SdMmcCard where
  /-- The call `is_directory(path)`. -/
  is_directory : Str → Bool

/-- The configuration fields of `SDFileServer` and its storage driver. -/
structure SDFileServer where
  url_prefix_ : Str
  root_path_ : Str
  deletion_enabled_ : Bool
  download_enabled_ : Bool
  upload_enabled_ : Bool
  sd_mmc_card_ : SdMmcCard

/-- A call the handler makes on the request or on the storage driver. -/
inductive Effect where
  /-- A response sent with `request->send`: status, content type, body, added headers. -/
  | send (code : Nat) (content_type body : Str) (headers : List (Str × Str))
  /-- The call `sd_mmc_card_->write_file(path, data, len)`. -/
  | write_file (path : Str) (data : List Byte)
  /-- The call `sd_mmc_card_->append_file(path, data, len)`. -/
  | append_file (path : Str) (data : List Byte)
  deriving DecidableEq

/-- Whether an effect is a call of the driver's `write_file` or `append_file`. -/
def Effect.is_storage_write : Effect → Bool
  | .send _ _ _ _ => false
  | .write_file _ _ => true
  | .append_file _ _ => true

/-- Whether an effect is a sent response. -/
def Effect.is_send : Effect → Bool
  | .send _ _ _ _ => true
  | .write_file _ _ => false
  | .append_file _ _ => false

namespace SDFileServer

/-- The method `SDFileServer::build_prefix`. -/
def build_prefix (self : SDFileServer) : Str :=
  if self.url_prefix_ = [] ∨ self.url_prefix_.head? ≠ some '/' then
    "/".toList ++ self.url_prefix_
  else self.url_prefix_

/-- The method `SDFileServer::extract_path_from_url`. -/
def extract_path_from_url (self : SDFileServer) (url : Str) : Option Str :=
  let pre := self.build_prefix
  substr_n url pre.length (url.length - pre.length)

/-- The method `SDFileServer::build_absolute_path`. -/
def build_absolute_path (self : SDFileServer) (relative_path : Str) : Str :=
  if relative_path = [] then self.root_path_
  else Path.join self.root_path_ relative_path

/-- The local `uri` of `SDFileServer::write_row`, computed from `info.path`. -/
def write_row_uri (self : SDFileServer) (info_path : Str) : Str :=
  "/".toList ++ Path.join self.url_prefix_ (Path.remove_root_path info_path self.root_path_)

/-- The method `SDFileServer::handleUpload`; `data` holds the `len` bytes of the chunk.
The result is the trace of calls made, `none` when `substr` throws. -/
def handleUpload (self : SDFileServer) (url filename : Str) (index : Nat)
    (data : List Byte) (final : Bool) : Option (List Effect) :=
  if !self.upload_enabled_ then
    some [.send 401 "application/json".toList
      "\x7b \"error\": \"file upload is disabled\" \x7d".toList []]
  else
    match self.extract_path_from_url url with
    | none => none
    | some extracted =>
      let path := self.build_absolute_path extracted
      if index == 0 && !self.sd_mmc_card_.is_directory path then
        some [.send 401 "application/json".toList
          "\x7b \"error\": \"invalid upload folder\" \x7d".toList
          [("Connection".toList, "close".toList)]]
      else
        let file_name := filename
        if index == 0 then
          some [.write_file (Path.join path file_name) data]
        else
          let appended := Effect.append_file (Path.join path file_name) data
          if final then
            some [appended, .send 201 "text/html".toList "upload success".toList
              [("Connection".toList, "close".toList)]]
          else some [appended]

end SDFileServer

/-! ## The download stream -/

/-- The C stream `FILE *file` captured by the chunk callback of `handle_download`. -/
structure FILE where
  /-- The bytes of the file. -/
  content : List Byte
  /-- The stream's sequential read position. -/
  cursor : Nat
  /-- Whether the stream is still open. -/
  is_open : Bool
  /-- How many times `fread` was called on the stream. -/
  fread_calls : Nat
  /-- How many times `fclose` was called on the stream. -/
  fclose_calls : Nat
  deriving DecidableEq

/-- The stream as the callback first sees it: `fopen(path, "rb")` succeeded and
`handle_download` has sought to the end and back to offset 0. -/
def FILE.opened (content : List Byte) : FILE :=
  { content := content, cursor := 0, is_open := true, fread_calls := 0, fclose_calls := 0 }

/-- The bytes not yet read. -/
def FILE.remaining (file : FILE) : Nat := file.content.length - file.cursor

/-- The call `fread(buffer, 1, maxLen, file)`: delivers `min(maxLen, remaining)` bytes from
the cursor and advances it. Reading a closed stream is undefined in C; the model delivers
no bytes there and still counts the call. -/
def fread (maxLen : Nat) (file : FILE) : List Byte × FILE :=
  if file.is_open then
    let got := (file.content.drop file.cursor).take maxLen
    (got, { file with cursor := file.cursor + got.length, fread_calls := file.fread_calls + 1 })
  else
    ([], { file with fread_calls := file.fread_calls + 1 })

/-- The call `fclose(file)`. -/
def fclose (file : FILE) : FILE :=
  { file with is_open := false, fclose_calls := file.fclose_calls + 1 }

/-- What one pull of the chunk callback produces: the returned `bytes_read`, the bytes
stored in the buffer, and the stream afterwards. -/
structure Pull where
  bytes_read : Nat
  buffer : List Byte
  file : FILE
  deriving DecidableEq

/-- The chunk callback of `handle_download`:
`[file](uint8_t *buffer, size_t maxLen, size_t index) -> size_t`. -/
def chunk (file : FILE) (maxLen index : Nat) : Pull :=
  let (buffer, file) := fread maxLen file
  let bytes_read := buffer.length
  let file := if bytes_read == 0 then fclose file else file
  { bytes_read := bytes_read, buffer := buffer, file := file }

/-- The transport invoking the callback once per `(maxLen, index)` request, in order:
the pulls made, each with the stream as it left it. -/
def pulls : FILE → List (Nat × Nat) → List Pull
  | _, [] => []
  | file, (maxLen, index) :: rest =>
    let p := chunk file maxLen index
    p :: pulls p.file rest

/-- What `handle_download` does with the request. -/
inductive Download where
  /-- A response sent at once with `request->send(code, content_type, body)`. -/
  | send (code : Nat) (content_type body : Str)
  /-- A chunked response: content type, `Content-Length` value, the captured stream. -/
  | chunked (content_type : Str) (content_length : Nat) (file : FILE)
  deriving DecidableEq

/-- The method `SDFileServer::handle_download`; `fopen` gives the bytes of the file at a
path, `none` when it cannot be opened. -/
def SDFileServer.handle_download (self : SDFileServer) (fopen : Str → Option (List Byte))
    (path : Str) : Download :=
  if !self.download_enabled_ then
    .send 401 "application/json".toList "\x7b \"error\": \"file download is disabled\" \x7d".toList
  else
    match fopen path with
    | none => .send 404 "text/plain".toList "File not found".toList
    | some content =>
      let file := FILE.opened content
      let file_size := content.length
      .chunked (Path.mime_type path) file_size file

/-- The number `ceil(S / C)` of chunks of size `C` covering `S` bytes. -/
def ceil_div (S C : Nat) : Nat := (S + C - 1) / C


/-! ## Facts about the path helpers -/

namespace Path

theorem is_absolute_iff (s : Str) : is_absolute s = true ↔ ∃ t, s = '/' :: t := by
  cases s with
  | nil => simp [is_absolute]
  | cons c t => simp [is_absolute, separator]

theorem is_absolute_cons (c : Char) (t : Str) : is_absolute (c :: t) = (c == '/') := by
  simp [is_absolute, separator]

theorem trailing_slash_concat (t : Str) (c : Char) :
    trailing_slash (t ++ [c]) = (c == '/') := by
  simp [trailing_slash, separator]

theorem trailing_slash_iff (s : Str) : trailing_slash s = true ↔ ∃ t, s = t ++ ['/'] := by
  rcases s.eq_nil_or_concat with rfl | ⟨t, c, rfl⟩
  · simp [trailing_slash]
  · rw [List.concat_eq_append, trailing_slash_concat]
    simp only [beq_iff_eq]
    constructor
    · rintro rfl
      exact ⟨t, rfl⟩
    · rintro ⟨u, hu⟩
      have h := (List.append_inj' hu rfl).2
      simpa using h

theorem join_plain (a b : Str) (ha : trailing_slash a = false) (hb : is_absolute b = false) :
    join a b = a ++ ['/'] ++ b := by
  simp [join, ha, hb, separator]

theorem join_left (a b : Str) (ha : trailing_slash a = true) (hb : is_absolute b = false) :
    join a b = a ++ b := by
  simp [join, ha, hb]

theorem join_right (a b : Str) (ha : trailing_slash a = false) (hb : is_absolute b = true) :
    join a b = a ++ b := by
  simp [join, ha, hb]

theorem join_both (a b : Str) (ha : trailing_slash a = true) (hb : is_absolute b = true) :
    join a b = a.dropLast ++ b ∧ join a b = a ++ b.tail := by
  obtain ⟨t, rfl⟩ := (trailing_slash_iff a).1 ha
  obtain ⟨u, rfl⟩ := (is_absolute_iff b).1 hb
  simp [join, ha, hb]

theorem prefix_join (a b : Str) : a <+: join a b := by
  cases ha : trailing_slash a <;> cases hb : is_absolute b
  · rw [join_plain a b ha hb, List.append_assoc]; exact List.prefix_append _ _
  · rw [join_right a b ha hb]; exact List.prefix_append _ _
  · rw [join_left a b ha hb]; exact List.prefix_append _ _
  · rw [(join_both a b ha hb).2]; exact List.prefix_append _ _

end Path

/-- C1. Containment: for every configured `root_path_` and every relative path, empty or
not, absolute or not, `build_absolute_path` returns a string that begins with
`root_path_`. -/
theorem build_absolute_path_starts_with_root (self : SDFileServer) (relative_path : Str) :
    self.root_path_ <+: self.build_absolute_path relative_path := by
  unfold SDFileServer.build_absolute_path
  split
  · exact List.prefix_refl _
  · exact Path.prefix_join _ _

/-- The traversal example of the containment property: with root `/sd` the relative path
`../../etc/passwd` resolves to `/sd/../../etc/passwd`, which begins with `/sd`. -/
theorem build_absolute_path_traversal_example (self : SDFileServer)
    (h : self.root_path_ = "/sd".toList) :
    self.build_absolute_path "../../etc/passwd".toList = "/sd/../../etc/passwd".toList ∧
      str_startswith (self.build_absolute_path "../../etc/passwd".toList) "/sd".toList = true := by
  simp only [SDFileServer.build_absolute_path, h]
  decide

/-- C2. `build_absolute_path` returns `root_path_` unchanged for the empty relative path;
for a non-empty one it returns the two joined with exactly one separator between them: a
separator is inserted when `root_path_` does not end with one and the relative path does
not begin with one, nothing is inserted when exactly one of them supplies it, and the
duplicate is collapsed (the root's trailing separator dropped, equivalently the relative
path's leading one) when both supply it. -/
theorem build_absolute_path_join (self : SDFileServer) (relative_path : Str) :
    (relative_path = [] → self.build_absolute_path relative_path = self.root_path_) ∧
    (relative_path ≠ [] → Path.trailing_slash self.root_path_ = false →
        Path.is_absolute relative_path = false →
      self.build_absolute_path relative_path
        = self.root_path_ ++ [Path.separator] ++ relative_path) ∧
    (relative_path ≠ [] →
        Path.trailing_slash self.root_path_ ≠ Path.is_absolute relative_path →
      self.build_absolute_path relative_path = self.root_path_ ++ relative_path) ∧
    (relative_path ≠ [] → Path.trailing_slash self.root_path_ = true →
        Path.is_absolute relative_path = true →
      self.build_absolute_path relative_path = self.root_path_.dropLast ++ relative_path ∧
      self.build_absolute_path relative_path = self.root_path_ ++ relative_path.tail ∧
      self.root_path_.dropLast ++ [Path.separator] = self.root_path_ ∧
      Path.separator :: relative_path.tail = relative_path) := by
  refine ⟨?_, ?_, ?_, ?_⟩
  · intro h
    simp [SDFileServer.build_absolute_path, h]
  · intro h ha hb
    simp only [SDFileServer.build_absolute_path, h, if_false]
    exact Path.join_plain _ _ ha hb
  · intro h hne
    simp only [SDFileServer.build_absolute_path, h, if_false]
    cases ha : Path.trailing_slash self.root_path_ <;>
      cases hb : Path.is_absolute relative_path
    · simp [ha, hb] at hne
    · exact Path.join_right _ _ ha hb
    · exact Path.join_left _ _ ha hb
    · simp [ha, hb] at hne
  · intro h ha hb
    simp only [SDFileServer.build_absolute_path, h, if_false]
    refine ⟨(Path.join_both _ _ ha hb).1, (Path.join_both _ _ ha hb).2, ?_, ?_⟩
    · obtain ⟨t, ht⟩ := (Path.trailing_slash_iff _).1 ha
      rw [ht]; simp [Path.separator]
    · obtain ⟨u, hu⟩ := (Path.is_absolute_iff _).1 hb
      rw [hu]; simp [Path.separator]

/-- C2 at root `/sd/` and relative path `/a`: both supply the separator and one is kept. -/
theorem build_absolute_path_join_witness :
    (⟨[], "/sd/".toList, false, false, false, ⟨fun _ => false⟩⟩ : SDFileServer).build_absolute_path
        "/a".toList = "/sd/a".toList := by
  have h := (build_absolute_path_join
    ⟨[], "/sd/".toList, false, false, false, ⟨fun _ => false⟩⟩ "/a".toList).2.2.2
    (by decide) (by decide) (by decide)
  exact h.2.1.trans (by decide)


/-! ## URL space and storage space -/

theorem str_startswith_append (root r : Str) : str_startswith (root ++ r) root = true := by
  simp [str_startswith]

/-- Stripping the root from `root ++ r` gives `r` back, except that a result of fewer
than two characters in all is replaced by `/`. -/
theorem Path.remove_root_path_append (root r : Str) (hr : r ≠ []) :
    Path.remove_root_path (root ++ r) root
      = if (root ++ r).length < 2 then "/".toList else r := by
  have hlen : ((root ++ r).length == root.length) = false := by
    have : 0 < r.length := List.length_pos.2 hr
    simp only [List.length_append, beq_eq_false_iff_ne, ne_eq]
    omega
  unfold Path.remove_root_path
  rw [str_startswith_append, hlen]
  by_cases h2 : (root ++ r).length < 2
  · simp [h2]
  · simp [h2]

theorem Path.remove_root_path_self (root : Str) :
    Path.remove_root_path root root = "/".toList := by
  simp [Path.remove_root_path, str_startswith]

/-- What `remove_root_path` recovers from a resolved path: the relative path itself, or
its tail when the root's trailing separator absorbed the leading one. -/
theorem remove_root_path_build_absolute_path (self : SDFileServer) (t : Str) :
    Path.remove_root_path (self.build_absolute_path ('/' :: t)) self.root_path_
      = if Path.trailing_slash self.root_path_ = true ∧ t ≠ [] then t else '/' :: t := by
  have hr : Path.is_absolute ('/' :: t) = true := by simp [Path.is_absolute_cons]
  simp only [SDFileServer.build_absolute_path, if_false, reduceCtorEq]
  cases ha : Path.trailing_slash self.root_path_
  · rw [Path.join_right _ _ ha hr, Path.remove_root_path_append _ _ (by simp)]
    simp only [false_and, if_false, Bool.false_eq_true]
    split
    · rename_i h2
      simp only [List.length_append, List.length_cons] at h2
      have ht : t = [] := List.length_eq_zero.1 (by omega)
      subst ht
      rfl
    · rfl
  · rw [(Path.join_both _ _ ha hr).2, List.tail_cons]
    by_cases ht : t = []
    · subst ht
      simp [Path.remove_root_path_self]
    · obtain ⟨u, hu⟩ := (Path.trailing_slash_iff _).1 ha
      rw [Path.remove_root_path_append _ _ ht]
      have hlen : ¬ (self.root_path_ ++ t).length < 2 := by
        have : 0 < t.length := List.length_pos.2 ht
        rw [hu]
        simp only [List.length_append, List.length_singleton]
        omega
      rw [if_neg hlen]
      simp [ht]

theorem build_prefix_of_not_absolute (self : SDFileServer)
    (hp : Path.is_absolute self.url_prefix_ = false) :
    self.build_prefix = '/' :: self.url_prefix_ := by
  unfold SDFileServer.build_prefix
  cases hpre : self.url_prefix_ with
  | nil => simp
  | cons c p =>
    rw [hpre, Path.is_absolute_cons] at hp
    have hc : c ≠ '/' := by simpa using hp
    simp [hc]

theorem extract_path_from_url_append (self : SDFileServer) (r : Str) :
    self.extract_path_from_url (self.build_prefix ++ r) = some r := by
  simp [SDFileServer.extract_path_from_url, substr_n]

/-- C3, amended. For every `root_path_`, every `url_prefix_` that neither begins nor ends
with a separator, and every relative path `r` that begins with a separator (with or
without traversal sequences) and, when `root_path_` ends with a separator, has no second
separator right after the first: the row link built for the storage path
`build_absolute_path r` is `build_prefix` followed by `r`, and `extract_path_from_url`
applied to it gives back `r`. -/
theorem write_row_uri_round_trip (self : SDFileServer) (r : Str)
    (hr : Path.is_absolute r = true)
    (hp : Path.is_absolute self.url_prefix_ = false)
    (hq : Path.trailing_slash self.url_prefix_ = false)
    (hd : Path.trailing_slash self.root_path_ = true → Path.is_absolute r.tail = false) :
    self.write_row_uri (self.build_absolute_path r) = self.build_prefix ++ r ∧
    self.extract_path_from_url (self.write_row_uri (self.build_absolute_path r)) = some r := by
  obtain ⟨t, rfl⟩ := (Path.is_absolute_iff r).1 hr
  have huri : self.write_row_uri (self.build_absolute_path ('/' :: t))
      = self.build_prefix ++ '/' :: t := by
    unfold SDFileServer.write_row_uri
    rw [remove_root_path_build_absolute_path, build_prefix_of_not_absolute self hp]
    split
    · rename_i h
      have ht : Path.is_absolute t = false := hd h.1
      rw [Path.join_plain _ _ hq ht]
      simp
    · rw [Path.join_right _ _ hq hr]
      simp
  exact ⟨huri, by rw [huri]; exact extract_path_from_url_append self _⟩

/-- C3 at root `/sd/`, prefix `files` and relative path `/docs/a.txt`. -/
theorem write_row_uri_round_trip_witness :
    (⟨"files".toList, "/sd/".toList, false, false, false, ⟨fun _ => false⟩⟩ :
        SDFileServer).write_row_uri "/sd/docs/a.txt".toList = "/files/docs/a.txt".toList ∧
    (⟨"files".toList, "/sd/".toList, false, false, false, ⟨fun _ => false⟩⟩ :
        SDFileServer).extract_path_from_url "/files/docs/a.txt".toList
      = some "/docs/a.txt".toList := by
  have h := write_row_uri_round_trip
    ⟨"files".toList, "/sd/".toList, false, false, false, ⟨fun _ => false⟩⟩
    "/docs/a.txt".toList (by decide) (by decide) (by decide) (fun _ => by decide)
  exact ⟨h.1.trans (by decide), by decide⟩

/-- C3 as stated fails: with root `/sd`, prefix `files` and the relative path `docs`
(no `.` in it, so no traversal sequence) the row link of `build_absolute_path "docs"` is
`/files/docs`, not `build_prefix` followed by `docs` (`/filesdocs`), and
`extract_path_from_url` gives `/docs` back, not `docs`. -/
theorem write_row_uri_round_trip_fails :
    '.' ∉ "docs".toList ∧
    (⟨"files".toList, "/sd".toList, false, false, false, ⟨fun _ => false⟩⟩ :
        SDFileServer).build_absolute_path "docs".toList = "/sd/docs".toList ∧
    (⟨"files".toList, "/sd".toList, false, false, false, ⟨fun _ => false⟩⟩ :
        SDFileServer).write_row_uri "/sd/docs".toList = "/files/docs".toList ∧
    SDFileServer.build_prefix
        ⟨"files".toList, "/sd".toList, false, false, false, ⟨fun _ => false⟩⟩
      ++ "docs".toList = "/filesdocs".toList ∧
    (⟨"files".toList, "/sd".toList, false, false, false, ⟨fun _ => false⟩⟩ :
        SDFileServer).extract_path_from_url "/files/docs".toList = some "/docs".toList ∧
    "/docs".toList ≠ "docs".toList := by
  decide


/-- The other conditions of the amended round trip are needed too: with a prefix that
begins with a separator (`/files`) the row link is `//files/docs`; with one that ends
with a separator (`files/`) the link `/files/docs` extracts to `docs`; and with root
`/sd/` the relative path `//x` comes back as `/x`. -/
theorem write_row_uri_round_trip_conditions :
    SDFileServer.write_row_uri
        ⟨"/files".toList, "/sd".toList, false, false, false, ⟨fun _ => false⟩⟩
        "/sd/docs".toList = "//files/docs".toList ∧
    SDFileServer.extract_path_from_url
        ⟨"files/".toList, "/sd".toList, false, false, false, ⟨fun _ => false⟩⟩
        (SDFileServer.write_row_uri
          ⟨"files/".toList, "/sd".toList, false, false, false, ⟨fun _ => false⟩⟩
          "/sd/docs".toList) = some "docs".toList ∧
    SDFileServer.build_absolute_path
        ⟨"files".toList, "/sd/".toList, false, false, false, ⟨fun _ => false⟩⟩
        "//x".toList = "/sd//x".toList ∧
    SDFileServer.extract_path_from_url
        ⟨"files".toList, "/sd/".toList, false, false, false, ⟨fun _ => false⟩⟩
        (SDFileServer.write_row_uri
          ⟨"files".toList, "/sd/".toList, false, false, false, ⟨fun _ => false⟩⟩
          "/sd//x".toList) = some "/x".toList := by
  decide

/-! ## Upload -/

/-- C7. With `upload_enabled_` false, every `handleUpload` call, whatever its url,
filename, index, data and final flag, responds 401 with the JSON body naming the disabled
feature and makes no call to the driver's `write_file` or `append_file`. -/
theorem handleUpload_disabled (self : SDFileServer) (url filename : Str) (index : Nat)
    (data : List Byte) (final : Bool) (h : self.upload_enabled_ = false) :
    self.handleUpload url filename index data final
      = some [Effect.send 401 "application/json".toList
          "\x7b \"error\": \"file upload is disabled\" \x7d".toList []] ∧
    ∀ trace, self.handleUpload url filename index data final = some trace →
      ∀ e ∈ trace, e.is_storage_write = false := by
  have hrun : self.handleUpload url filename index data final
      = some [Effect.send 401 "application/json".toList
          "\x7b \"error\": \"file upload is disabled\" \x7d".toList []] := by
    simp [SDFileServer.handleUpload, h]
  refine ⟨hrun, ?_⟩
  intro trace ht e he
  rw [hrun] at ht
  cases ht
  simp only [List.mem_singleton] at he
  subst he
  rfl

/-- C7 at a server with uploads disabled, for a single-chunk upload into the root. -/
theorem handleUpload_disabled_witness :
    (⟨"files".toList, "/sd".toList, true, true, false, ⟨fun _ => true⟩⟩ :
        SDFileServer).handleUpload "/files".toList "a.txt".toList 0 [104, 105] true
      = some [Effect.send 401 "application/json".toList
          "\x7b \"error\": \"file upload is disabled\" \x7d".toList []] :=
  (handleUpload_disabled ⟨"files".toList, "/sd".toList, true, true, false, ⟨fun _ => true⟩⟩
    "/files".toList "a.txt".toList 0 [104, 105] true rfl).1

/-- The first chunk of an upload into an existing directory: the data goes to
`write_file` and the handler returns at once, whatever the final flag. -/
theorem handleUpload_first_chunk (self : SDFileServer) (url filename extracted : Str)
    (data : List Byte) (final : Bool) (hen : self.upload_enabled_ = true)
    (hurl : self.extract_path_from_url url = some extracted)
    (hdir : self.sd_mmc_card_.is_directory (self.build_absolute_path extracted) = true) :
    self.handleUpload url filename 0 data final
      = some [Effect.write_file
          (Path.join (self.build_absolute_path extracted) filename) data] := by
  simp [SDFileServer.handleUpload, hen, hurl, hdir]

/-- A later chunk of an upload: the data goes to `append_file`, and the 201 response
follows exactly when the chunk is flagged final. -/
theorem handleUpload_later_chunk (self : SDFileServer) (url filename extracted : Str)
    (index : Nat) (data : List Byte) (final : Bool) (hen : self.upload_enabled_ = true)
    (hurl : self.extract_path_from_url url = some extracted) (hidx : index ≠ 0) :
    self.handleUpload url filename index data final
      = some (Effect.append_file (Path.join (self.build_absolute_path extracted) filename) data
          :: if final then
              [Effect.send 201 "text/html".toList "upload success".toList
                [("Connection".toList, "close".toList)]]
             else []) := by
  cases final <;> simp [SDFileServer.handleUpload, hen, hurl, hidx]

/-- C6 at its failing input: uploads enabled, the url `/files` resolving to the existing
directory `/sd`, a file arriving as one chunk with index 0 and final set. The handler
calls `write_file` on `/sd/a.txt` and returns: the trace holds no response at all, so the
201 "upload success" response is not sent. -/
theorem handleUpload_single_chunk_no_response :
    (⟨"files".toList, "/sd".toList, true, true, true, ⟨fun p => p == "/sd".toList⟩⟩ :
        SDFileServer).handleUpload "/files".toList "a.txt".toList 0 [104, 105] true
      = some [Effect.write_file "/sd/a.txt".toList [104, 105]] ∧
    [Effect.write_file "/sd/a.txt".toList [104, 105]].filter Effect.is_send = [] := by
  decide


/-! ## Download streaming -/

theorem getLast?_cons_of_ne_nil {α : Type} (a : α) (l : List α) (h : l ≠ []) :
    (a :: l).getLast? = l.getLast? := by
  cases l with
  | nil => exact absurd rfl h
  | cons b l => exact List.getLast?_cons_cons

theorem ceil_div_eq_zero (r C : Nat) (hC : 0 < C) (h : ceil_div r C = 0) : r = 0 := by
  unfold ceil_div at h
  rcases (Nat.div_eq_zero_iff hC).1 h with h1
  omega

theorem ceil_div_succ (r C n : Nat) (hC : 0 < C) (h : ceil_div r C = n + 1) :
    0 < r ∧ ceil_div (r - min C r) C = n := by
  unfold ceil_div at h ⊢
  have hr : 0 < r := by
    rcases Nat.eq_zero_or_pos r with h0 | h0
    · subst h0
      have : (0 + C - 1) / C = 0 := Nat.div_eq_of_lt (by omega)
      omega
    · exact h0
  refine ⟨hr, ?_⟩
  rcases Nat.lt_or_ge C r with hlt | hge
  · have e1 : r - min C r + C - 1 = r - 1 := by
      rw [Nat.min_eq_left (Nat.le_of_lt hlt)]; omega
    have e2 : r + C - 1 = (r - 1) + C := by omega
    rw [e2, Nat.add_div_right _ hC] at h
    rw [e1]
    omega
  · have e1 : r - min C r + C - 1 = C - 1 := by
      rw [Nat.min_eq_right hge]; omega
    have e2 : r + C - 1 = (r - 1) + C := by omega
    rw [e2, Nat.add_div_right _ hC, Nat.div_eq_of_lt (by omega)] at h
    rw [e1, Nat.div_eq_of_lt (by omega)]
    omega

theorem take_append_drop_cursor {α : Type} (l : List α) (c C : Nat) :
    (l.drop c).take C ++ l.drop (c + min C (l.length - c)) = l.drop c := by
  rcases Nat.le_total C (l.length - c) with h | h
  · rw [Nat.min_eq_left h]
    have : l.drop (c + C) = (l.drop c).drop C := by simp [List.drop_drop, Nat.add_comm]
    rw [this]
    exact List.take_append_drop _ _
  · rw [Nat.min_eq_right h]
    have h1 : l.drop (c + (l.length - c)) = [] := List.drop_eq_nil_of_le (by omega)
    have h2 : (l.drop c).take C = l.drop c := List.take_of_length_le (by simpa using h)
    rw [h1, h2, List.append_nil]

/-- A pull on an open stream at its end, or with room for no byte: nothing is read, and
the stream is closed. -/
theorem chunk_at_end (f : FILE) (maxLen index : Nat) (hopen : f.is_open = true)
    (hend : f.remaining = 0 ∨ maxLen = 0) :
    (chunk f maxLen index).bytes_read = 0 ∧ (chunk f maxLen index).buffer = [] ∧
    (chunk f maxLen index).file.is_open = false ∧
    (chunk f maxLen index).file.fclose_calls = f.fclose_calls + 1 := by
  have hgot : (f.content.drop f.cursor).take maxLen = [] := by
    rcases hend with h | h
    · have : f.content.drop f.cursor = [] := by
        apply List.drop_eq_nil_of_le
        unfold FILE.remaining at h
        omega
      rw [this]; simp
    · subst h; simp
  simp [chunk, fread, hopen, hgot, fclose]

/-- A pull on an open stream with bytes left and room for some: it reads
`min(maxLen, remaining)` bytes from the cursor, advances the cursor and leaves the stream
open. -/
theorem chunk_reads (f : FILE) (maxLen index : Nat) (hopen : f.is_open = true)
    (hrem : 0 < f.remaining) (hmax : 0 < maxLen) :
    (chunk f maxLen index).bytes_read = min maxLen f.remaining ∧
    (chunk f maxLen index).bytes_read ≠ 0 ∧
    (chunk f maxLen index).buffer = (f.content.drop f.cursor).take maxLen ∧
    (chunk f maxLen index).file.is_open = true ∧
    (chunk f maxLen index).file.fclose_calls = f.fclose_calls ∧
    (chunk f maxLen index).file.content = f.content ∧
    (chunk f maxLen index).file.cursor = f.cursor + min maxLen f.remaining := by
  have hlen : ((f.content.drop f.cursor).take maxLen).length = min maxLen f.remaining := by
    simp [FILE.remaining]
  have hpos : min maxLen f.remaining ≠ 0 := by
    have := Nat.lt_min.2 ⟨hmax, hrem⟩
    omega
  have hchunk : chunk f maxLen index
      = { bytes_read := min maxLen f.remaining,
          buffer := (f.content.drop f.cursor).take maxLen,
          file := { f with cursor := f.cursor + min maxLen f.remaining,
                           fread_calls := f.fread_calls + 1 } } := by
    simp only [chunk, fread, hopen, if_true, hlen]
    simp [hpos]
  rw [hchunk]
  exact ⟨rfl, hpos, rfl, hopen, rfl, rfl, rfl⟩

/-- Pulling with a fixed `maxLen = C > 0` from an open stream until it reports the end:
`ceil(remaining / C)` pulls return bytes and leave the stream open, the next pull returns 0
and closes it, and the buffers together are the bytes from the cursor on. -/
theorem pulls_fixed_size (C : Nat) (hC : 0 < C) :
    ∀ (n : Nat) (f : FILE) (idxs : List Nat), f.is_open = true →
      ceil_div f.remaining C = n → idxs.length = n + 1 →
      (pulls f (idxs.map fun i => (C, i))).length = n + 1 ∧
      (∀ p ∈ (pulls f (idxs.map fun i => (C, i))).dropLast,
        p.bytes_read ≠ 0 ∧ p.file.is_open = true ∧ p.file.fclose_calls = f.fclose_calls) ∧
      (∃ p, (pulls f (idxs.map fun i => (C, i))).getLast? = some p ∧ p.bytes_read = 0 ∧
        p.file.is_open = false ∧ p.file.fclose_calls = f.fclose_calls + 1) ∧
      ((pulls f (idxs.map fun i => (C, i))).map Pull.buffer).flatten
        = f.content.drop f.cursor := by
  intro n
  induction n with
  | zero =>
    intro f idxs hopen hceil hlen
    have hrem : f.remaining = 0 := ceil_div_eq_zero _ _ hC hceil
    obtain ⟨i, rfl⟩ : ∃ i, idxs = [i] := List.length_eq_one.1 hlen
    obtain ⟨h1, h2, h3, h4⟩ := chunk_at_end f C i hopen (Or.inl hrem)
    have hdrop : f.content.drop f.cursor = [] := by
      apply List.drop_eq_nil_of_le
      unfold FILE.remaining at hrem
      omega
    refine ⟨by simp [pulls], by simp [pulls], ⟨chunk f C i, by simp [pulls], h1, h3, h4⟩, ?_⟩
    simp [pulls, h2, hdrop]
  | succ n ih =>
    intro f idxs hopen hceil hlen
    obtain ⟨hrem, hnext⟩ := ceil_div_succ _ _ _ hC hceil
    obtain ⟨i, rest, rfl⟩ : ∃ i rest, idxs = i :: rest := by
      cases idxs with
      | nil => simp at hlen
      | cons i rest => exact ⟨i, rest, rfl⟩
    have hrest : rest.length = n + 1 := by simpa using hlen
    obtain ⟨_, c2, c3, c4, c5, c6, c7⟩ := chunk_reads f C i hopen hrem hC
    have hrem2 : (chunk f C i).file.remaining = f.remaining - min C f.remaining := by
      simp only [FILE.remaining, c6, c7]
      omega
    obtain ⟨i1, i2, ⟨q, hq, i3⟩, i4⟩ :=
      ih (chunk f C i).file rest c4 (by rw [hrem2]; exact hnext) hrest
    have hne : pulls (chunk f C i).file (rest.map fun i => (C, i)) ≠ [] := by
      intro h0
      rw [h0] at i1
      simp at i1
    have hpulls : pulls f ((i :: rest).map fun i => (C, i))
        = chunk f C i :: pulls (chunk f C i).file (rest.map fun i => (C, i)) := by
      simp [pulls]
    rw [hpulls]
    refine ⟨by simp [i1], ?_, ⟨q, ?_, ?_⟩, ?_⟩
    · intro p hp
      rw [List.dropLast_cons_of_ne_nil hne, List.mem_cons] at hp
      rcases hp with rfl | hp
      · exact ⟨c2, c4, c5⟩
      · have := i2 p hp
        rw [c5] at this
        exact this
    · rw [getLast?_cons_of_ne_nil _ _ hne]
      exact hq
    · rw [c5] at i3
      exact i3
    · rw [List.map_cons, List.flatten_cons, i4, c3, c6, c7]
      exact take_append_drop_cursor f.content f.cursor C


/-- The number `ceil_div S C` is the ceiling of `S / C`. -/
theorem ceil_div_eq_ceilDiv (S C : Nat) : ceil_div S C = S ⌈/⌉ C :=
  (Nat.ceilDiv_eq_add_pred_div S C).symm

/-- The callback never looks at its `index` argument. -/
theorem chunk_index_irrelevant (f : FILE) (maxLen i j : Nat) :
    chunk f maxLen i = chunk f maxLen j := rfl

/-- The value a pull returns is the number of bytes it stored in the buffer. -/
theorem pulls_bytes_read : ∀ (reqs : List (Nat × Nat)) (f : FILE),
    ∀ p ∈ pulls f reqs, p.bytes_read = p.buffer.length := by
  intro reqs
  induction reqs with
  | nil => intro f p hp; simp [pulls] at hp
  | cons r rest ih =>
    intro f p hp
    obtain ⟨m, i⟩ := r
    simp only [pulls, List.mem_cons] at hp
    rcases hp with rfl | hp
    · rfl
    · exact ih _ p hp

theorem flatten_nonempty_pulls (ps : List Pull) (h : ∀ p ∈ ps, p.bytes_read = p.buffer.length) :
    ((ps.filter fun p => p.bytes_read != 0).map Pull.buffer).flatten
      = (ps.map Pull.buffer).flatten := by
  induction ps with
  | nil => rfl
  | cons p ps ih =>
    have hp := h p (List.mem_cons_self _ _)
    have ih2 := ih (fun q hq => h q (List.mem_cons_of_mem _ hq))
    by_cases h0 : p.bytes_read = 0
    · have hb : p.buffer = [] := List.length_eq_zero.1 (by omega)
      simp [List.filter_cons, h0, hb, ih2]
    · simp [List.filter_cons, h0, ih2]

/-- C4. For a file of `S` bytes and a chunk size `C > 0`, pulling the download callback
with `maxLen = C` (any `index` values) `ceil(S / C) + 1` times gives `ceil(S / C)` pulls
that return a non-zero byte count and leave the stream open with no `fclose` made,
followed by one pull that returns 0, on which the stream is closed, for the first and
only time. -/
theorem download_pull_count (content : List Byte) (C : Nat) (idxs : List Nat) (hC : 0 < C)
    (hlen : idxs.length = ceil_div content.length C + 1) :
    (pulls (FILE.opened content) (idxs.map fun i => (C, i))).length
      = ceil_div content.length C + 1 ∧
    (pulls (FILE.opened content) (idxs.map fun i => (C, i))).dropLast.length
      = ceil_div content.length C ∧
    (∀ p ∈ (pulls (FILE.opened content) (idxs.map fun i => (C, i))).dropLast,
      p.bytes_read ≠ 0 ∧ p.file.is_open = true ∧ p.file.fclose_calls = 0) ∧
    (∃ p, (pulls (FILE.opened content) (idxs.map fun i => (C, i))).getLast? = some p ∧
      p.bytes_read = 0 ∧ p.file.is_open = false ∧ p.file.fclose_calls = 1) := by
  obtain ⟨h1, h2, h3, _⟩ :=
    pulls_fixed_size C hC (ceil_div content.length C) (FILE.opened content) idxs rfl rfl hlen
  exact ⟨h1, by rw [List.length_dropLast, h1]; rfl, h2, h3⟩

/-- C4 on a file of 5 bytes pulled in chunks of 2: three pulls with data, then the
zero-byte pull. -/
theorem download_pull_count_witness :
    (pulls (FILE.opened [10, 11, 12, 13, 14])
        ([0, 2, 4, 5].map fun i => (2, i))).dropLast.length = 3 ∧
    ∃ p, (pulls (FILE.opened [10, 11, 12, 13, 14])
        ([0, 2, 4, 5].map fun i => (2, i))).getLast? = some p ∧
      p.bytes_read = 0 ∧ p.file.is_open = false ∧ p.file.fclose_calls = 1 :=
  ⟨(download_pull_count [10, 11, 12, 13, 14] 2 [0, 2, 4, 5] (by decide) (by decide)).2.1,
   (download_pull_count [10, 11, 12, 13, 14] 2 [0, 2, 4, 5] (by decide) (by decide)).2.2.2⟩

/-- C5. Byte-exact download: for every file content and chunk size `C > 0`, whatever the
`index` values passed, the buffers of the pulls that returned a non-zero count, taken in
order up to the first zero-byte pull, concatenate to the file's bytes exactly. -/
theorem download_bytes_exact (content : List Byte) (C : Nat) (idxs : List Nat) (hC : 0 < C)
    (hlen : idxs.length = ceil_div content.length C + 1) :
    (((pulls (FILE.opened content) (idxs.map fun i => (C, i))).filter
        fun p => p.bytes_read != 0).map Pull.buffer).flatten = content := by
  obtain ⟨_, _, _, h4⟩ :=
    pulls_fixed_size C hC (ceil_div content.length C) (FILE.opened content) idxs rfl rfl hlen
  rw [flatten_nonempty_pulls _ (pulls_bytes_read _ _), h4]
  rfl

/-- C5 on a file of 5 bytes pulled in chunks of 2 with arbitrary `index` values. -/
theorem download_bytes_exact_witness :
    (((pulls (FILE.opened [10, 11, 12, 13, 14]) ([7, 7, 0, 9].map fun i => (2, i))).filter
        fun p => p.bytes_read != 0).map Pull.buffer).flatten = [10, 11, 12, 13, 14] :=
  download_bytes_exact [10, 11, 12, 13, 14] 2 [7, 7, 0, 9] (by decide) (by decide)

/-- What one pull does to an open stream on which `fclose` was never called: it closes it,
once, exactly when it returns 0. -/
theorem chunk_close_iff (f : FILE) (maxLen index : Nat) (hopen : f.is_open = true)
    (hclose : f.fclose_calls = 0) :
    ((chunk f maxLen index).bytes_read = 0 →
      (chunk f maxLen index).file.fclose_calls = 1 ∧ (chunk f maxLen index).file.is_open = false) ∧
    ((chunk f maxLen index).bytes_read ≠ 0 →
      (chunk f maxLen index).file.fclose_calls = 0 ∧ (chunk f maxLen index).file.is_open = true) := by
  unfold chunk fread
  simp only [hopen, if_true]
  generalize (f.content.drop f.cursor).take maxLen = got
  cases got with
  | nil => simp [fclose, hclose]
  | cons b bs => simp [hclose]

theorem pulls_closed_at_most_once : ∀ (reqs : List (Nat × Nat)) (f : FILE),
    f.is_open = true → f.fclose_calls = 0 →
    (∀ p ∈ (pulls f reqs).dropLast, p.bytes_read ≠ 0) →
    ∀ p ∈ pulls f reqs, p.file.fclose_calls ≤ 1 ∧
      (p.file.fclose_calls = 1 ↔ p.bytes_read = 0) ∧
      (p.file.is_open = false ↔ p.bytes_read = 0) := by
  intro reqs
  induction reqs with
  | nil => intro f _ _ _ p hp; simp [pulls] at hp
  | cons r rest ih =>
    intro f hopen hclose hnz p hp
    obtain ⟨m, i⟩ := r
    obtain ⟨hz, hn⟩ := chunk_close_iff f m i hopen hclose
    have hhead : (chunk f m i).file.fclose_calls ≤ 1 ∧
        ((chunk f m i).file.fclose_calls = 1 ↔ (chunk f m i).bytes_read = 0) ∧
        ((chunk f m i).file.is_open = false ↔ (chunk f m i).bytes_read = 0) := by
      by_cases h0 : (chunk f m i).bytes_read = 0
      · obtain ⟨a, b⟩ := hz h0
        simp [a, b, h0]
      · obtain ⟨a, b⟩ := hn h0
        simp [a, b, h0]
    simp only [pulls] at hp hnz
    rcases List.mem_cons.1 hp with rfl | hp
    · exact hhead
    · have hne : pulls (chunk f m i).file rest ≠ [] := List.ne_nil_of_mem hp
      rw [List.dropLast_cons_of_ne_nil hne] at hnz
      have h0 : (chunk f m i).bytes_read ≠ 0 := hnz _ (List.mem_cons_self _ _)
      obtain ⟨a, b⟩ := hn h0
      exact ih _ b a (fun q hq => hnz q (List.mem_cons_of_mem _ hq)) p hp

/-- C9, amended. For every download and every sequence of pulls of its chunk callback
(any number of pulls, any `maxLen` and `index` values) in which no pull follows one that
returned 0, the stream is closed at most once: after each pull `fclose` has been called at
most once, and it has been called, and the stream is closed, exactly when that pull
returned 0. -/
theorem download_closed_at_most_once (content : List Byte) (reqs : List (Nat × Nat))
    (h : ∀ p ∈ (pulls (FILE.opened content) reqs).dropLast, p.bytes_read ≠ 0) :
    ∀ p ∈ pulls (FILE.opened content) reqs, p.file.fclose_calls ≤ 1 ∧
      (p.file.fclose_calls = 1 ↔ p.bytes_read = 0) ∧
      (p.file.is_open = false ↔ p.bytes_read = 0) :=
  pulls_closed_at_most_once reqs (FILE.opened content) rfl rfl h

/-- C9 on a file of 3 bytes pulled with `maxLen` 2, 5 and 1: the third pull returns 0 and
leaves the stream closed once. -/
theorem download_closed_at_most_once_witness :
    (pulls (FILE.opened [10, 11, 12]) [(2, 0), (5, 2), (1, 3)]).map
        (fun p => (p.bytes_read, p.file.fclose_calls)) = [(2, 0), (1, 0), (0, 1)] ∧
    ∀ p ∈ pulls (FILE.opened [10, 11, 12]) [(2, 0), (5, 2), (1, 3)],
      p.file.fclose_calls ≤ 1 ∧ (p.file.fclose_calls = 1 ↔ p.bytes_read = 0) ∧
      (p.file.is_open = false ↔ p.bytes_read = 0) :=
  ⟨by decide,
   download_closed_at_most_once [10, 11, 12] [(2, 0), (5, 2), (1, 3)] (by decide)⟩

/-- C9 as stated fails: on a file of one byte, the second pull returns 0 and closes the
stream; a third pull calls `fread` on the stream again (3 calls in all) and, getting 0,
calls `fclose` a second time. -/
theorem download_pull_after_end_closes_again :
    (pulls (FILE.opened [10]) [(1, 0), (1, 1), (1, 1)]).map
        (fun p => (p.bytes_read, p.file.fread_calls, p.file.fclose_calls))
      = [(1, 1, 0), (0, 2, 1), (0, 3, 2)] := by
  decide

/-- The stream a download starts from: with downloads enabled and the file opened,
`handle_download` answers with a chunked response whose `Content-Length` is the file size
and whose callback holds the freshly opened stream. -/
theorem handle_download_opens (self : SDFileServer) (fopen : Str → Option (List Byte))
    (path : Str) (content : List Byte) (hen : self.download_enabled_ = true)
    (hfile : fopen path = some content) :
    self.handle_download fopen path
      = Download.chunked (Path.mime_type path) content.length (FILE.opened content) := by
  simp [SDFileServer.handle_download, hen, hfile]


/-! ## Classification by extension -/

/-- The extensions the two tables know, as the spec lists them. -/
theorem table_extensions :
    Path.file_type_table.map Prod.fst
      = ["mp3".toList, "wav".toList, "png".toList, "jpg".toList, "jpeg".toList,
         "bmp".toList, "txt".toList, "log".toList, "csv".toList, "html".toList,
         "css".toList, "js".toList, "json".toList, "xml".toList, "zip".toList,
         "gz".toList, "tar".toList, "mp4".toList, "avi".toList, "webm".toList] ∧
    Path.mime_type_table.map Prod.fst = Path.file_type_table.map Prod.fst ∧
    (Path.file_type_table.map Prod.fst).Nodup ∧
    (Path.file_type_table.map Prod.fst).length = 20 := by
  decide

theorem tolower_eq_dot (c : Char) : tolower c = '.' ↔ c = '.' := by
  unfold tolower Char.toLower
  simp only
  split
  · rename_i h
    have h1 : c ≠ '.' := by
      rintro rfl
      revert h
      decide
    simp only [h1, iff_false]
    intro h2
    have h3 := congrArg Char.toNat h2
    obtain ⟨n, hn⟩ : ∃ n, c.toNat = n := ⟨_, rfl⟩
    rw [hn] at h h3
    obtain ⟨ha, hb⟩ := h
    interval_cases n <;> revert h3 <;> decide
  · rfl

theorem find_last_of_map_tolower (s : Str) :
    find_last_of '.' (s.map tolower) = find_last_of '.' s := by
  induction s with
  | nil => rfl
  | cons c s ih =>
    simp only [List.map_cons, find_last_of, ih]
    cases find_last_of '.' s with
    | some p => rfl
    | none =>
      by_cases hc : c = '.'
      · subst hc
        have h1 : tolower '.' = '.' := (tolower_eq_dot '.').2 rfl
        simp [h1]
      · have : tolower c ≠ '.' := fun h => hc ((tolower_eq_dot c).1 h)
        simp [hc, this]

theorem Path.extension_map_tolower (s : Str) :
    Path.extension (s.map tolower) = (Path.extension s).map tolower := by
  unfold Path.extension
  rw [find_last_of_map_tolower]
  cases find_last_of '.' s with
  | none => rfl
  | some p => simp [List.map_drop]

theorem find_last_of_none (c : Char) (s : Str) (h : c ∉ s) : find_last_of c s = none := by
  induction s with
  | nil => rfl
  | cons x s ih =>
    have hx : x ≠ c := fun e => h (by simp [e])
    have hs : c ∉ s := fun e => h (List.mem_cons_of_mem _ e)
    simp [find_last_of, ih hs, hx]

theorem find_last_of_append (c : Char) (pre suf : Str) (h : c ∉ suf) :
    find_last_of c (pre ++ c :: suf) = some pre.length := by
  induction pre with
  | nil => simp [find_last_of, find_last_of_none c suf h]
  | cons x pre ih => simp [find_last_of, ih]

/-- The function `extension` returns the text after the last `.`, and nothing when the
name has no `.`. -/
theorem Path.extension_spec (name : Str) :
    ('.' ∉ name → Path.extension name = []) ∧
    (∀ pre suf, name = pre ++ '.' :: suf → '.' ∉ suf → Path.extension name = suf) := by
  constructor
  · intro h
    simp [Path.extension, find_last_of_none _ _ h]
  · rintro pre suf rfl h
    simp [Path.extension, find_last_of_append _ _ _ h]

theorem lookup_eq_none_of_not_mem (e : Str) (table : List (Str × Str))
    (h : e ∉ table.map Prod.fst) : table.lookup e = none := by
  rw [List.lookup_eq_none_iff]
  intro p hp
  simp only [bne_iff_ne, ne_eq]
  rintro rfl
  exact h (List.mem_map_of_mem _ hp)

theorem lookup_isSome_of_mem (e : Str) (table : List (Str × Str))
    (h : e ∈ table.map Prod.fst) : ∃ v, table.lookup e = some v := by
  cases hl : table.lookup e with
  | some v => exact ⟨v, rfl⟩
  | none =>
    rw [List.lookup_eq_none_iff] at hl
    obtain ⟨p, hp, rfl⟩ := List.mem_map.1 h
    have := hl p hp
    simp at this

/-- The two classifiers as functions of the lower-cased extension alone. -/
theorem Path.file_type_by_extension (name : Str) :
    Path.file_type name
      = (if (Path.extension name).map tolower = [] then "File".toList
         else match Path.file_type_table.lookup ((Path.extension name).map tolower) with
           | some label => label
           | none => "File (".toList ++ (Path.extension name).map tolower ++ ")".toList) := by
  simp only [Path.file_type, List.map_eq_nil_iff]

theorem Path.mime_type_by_extension (name : Str) :
    Path.mime_type name
      = (match (if (Path.extension name).map tolower ≠ [] then
            Path.mime_type_table.lookup ((Path.extension name).map tolower) else none) with
         | some mime => mime
         | none => "application/octet-stream".toList) := by
  simp only [Path.mime_type, ne_eq, List.map_eq_nil_iff]

/-- C8. For every name, classification is decided by the lower-cased text after the last
`.`: with an empty extension (in particular with no `.` at all) `file_type` is `File` and
`mime_type` is `application/octet-stream`; with an extension that, lower-cased, is one of
the 20 table extensions, both are that extension's table entries; otherwise `file_type`
is `File (<ext>)` with the lower-cased extension and `mime_type` is
`application/octet-stream`. Names that differ only in letter case get the same
`file_type` and `mime_type`. -/
theorem classify_by_extension (name : Str) :
    ('.' ∉ name → Path.extension name = []) ∧
    (∀ pre suf, name = pre ++ '.' :: suf → '.' ∉ suf → Path.extension name = suf) ∧
    (Path.extension name = [] →
      Path.file_type name = "File".toList ∧
      Path.mime_type name = "application/octet-stream".toList) ∧
    ((Path.extension name).map tolower ∈ Path.file_type_table.map Prod.fst →
      ∃ label mime,
        Path.file_type_table.lookup ((Path.extension name).map tolower) = some label ∧
        Path.mime_type_table.lookup ((Path.extension name).map tolower) = some mime ∧
        Path.file_type name = label ∧ Path.mime_type name = mime) ∧
    (Path.extension name ≠ [] →
      (Path.extension name).map tolower ∉ Path.file_type_table.map Prod.fst →
      Path.file_type name
        = "File (".toList ++ (Path.extension name).map tolower ++ ")".toList ∧
      Path.mime_type name = "application/octet-stream".toList) ∧
    (∀ other : Str, other.map tolower = name.map tolower →
      Path.file_type other = Path.file_type name ∧
      Path.mime_type other = Path.mime_type name) := by
  refine ⟨(Path.extension_spec name).1, (Path.extension_spec name).2, ?_, ?_, ?_, ?_⟩
  · intro h
    simp [Path.file_type, Path.mime_type, h]
  · intro hmem
    have hne : (Path.extension name).map tolower ≠ [] := by
      intro h0
      rw [h0] at hmem
      revert hmem
      decide
    obtain ⟨label, hl⟩ := lookup_isSome_of_mem _ _ hmem
    obtain ⟨mime, hm⟩ := lookup_isSome_of_mem _ Path.mime_type_table
      (by rw [table_extensions.2.1]; exact hmem)
    refine ⟨label, mime, hl, hm, ?_, ?_⟩
    · rw [Path.file_type_by_extension, if_neg hne, hl]
    · rw [Path.mime_type_by_extension, if_pos hne, hm]
  · intro hne hnot
    have hne2 : (Path.extension name).map tolower ≠ [] := by
      simpa [List.map_eq_nil_iff] using hne
    have hl := lookup_eq_none_of_not_mem _ _ hnot
    have hm := lookup_eq_none_of_not_mem _ Path.mime_type_table
      (by rw [table_extensions.2.1]; exact hnot)
    constructor
    · rw [Path.file_type_by_extension, if_neg hne2, hl]
    · rw [Path.mime_type_by_extension, if_pos hne2, hm]
  · intro other h
    have hext : (Path.extension other).map tolower = (Path.extension name).map tolower := by
      rw [← Path.extension_map_tolower, ← Path.extension_map_tolower, h]
    constructor
    · rw [Path.file_type_by_extension, Path.file_type_by_extension, hext]
    · rw [Path.mime_type_by_extension, Path.mime_type_by_extension, hext]

/-- C8 at the names of the spec: `a.MP3` is classified as `mp3` is, and `noext` has no
extension. -/
theorem classify_by_extension_witness :
    (Path.file_type "a.MP3".toList = "Audio (MP3)".toList ∧
      Path.mime_type "a.MP3".toList = "audio/mpeg".toList) ∧
    (Path.file_type "noext".toList = "File".toList ∧
      Path.mime_type "noext".toList = "application/octet-stream".toList) ∧
    (Path.file_type "a.Xyz".toList = "File (xyz)".toList ∧
      Path.mime_type "a.Xyz".toList = "application/octet-stream".toList) := by
  refine ⟨?_, ?_, ?_⟩
  · have h := (classify_by_extension "a.mp3".toList).2.2.2.2.2 "a.MP3".toList (by decide)
    exact ⟨h.1.trans (by decide), h.2.trans (by decide)⟩
  · exact (classify_by_extension "noext".toList).2.2.1 (by decide)
  · have h := (classify_by_extension "a.Xyz".toList).2.2.2.2.1 (by decide) (by decide)
    exact ⟨h.1.trans (by decide), h.2⟩


/-! ## Splitting a path -/

theorem find_eq_none (c : Char) (s : Str) (h : find c s = none) : c ∉ s := by
  induction s with
  | nil => simp
  | cons x s ih =>
    by_cases hx : x = c
    · simp [find, hx] at h
    · simp only [find, hx, if_false, Option.map_eq_none'] at h
      have := ih h
      simp only [List.mem_cons, not_or]
      exact ⟨fun e => hx e.symm, this⟩

theorem find_eq_some (c : Char) (s : Str) (pos : Nat) (h : find c s = some pos) :
    s = s.take pos ++ c :: s.drop (pos + 1) ∧ c ∉ s.take pos ∧ pos < s.length := by
  induction s generalizing pos with
  | nil => simp [find] at h
  | cons x s ih =>
    by_cases hx : x = c
    · simp only [find, hx, if_true, Option.some.injEq] at h
      subst h
      simp [hx]
    · simp only [find, hx, if_false, Option.map_eq_some'] at h
      obtain ⟨q, hq, rfl⟩ := h
      obtain ⟨h1, h2, h3⟩ := ih q hq
      refine ⟨?_, ?_, ?_⟩
      · simp only [List.take_succ_cons, List.drop_succ_cons, List.cons_append]
        rw [← h1]
      · simp only [List.take_succ_cons, List.mem_cons, not_or]
        exact ⟨fun e => hx e.symm, h2⟩
      · simp only [List.length_cons]
        omega

theorem splitOn_of_not_mem (c : Char) (s : Str) (h : c ∉ s) : s.splitOn c = [s] := by
  induction s with
  | nil => simp [List.splitOn, List.splitOnP_nil]
  | cons x s ih =>
    have hx : x ≠ c := fun e => h (by simp [e])
    have hs : c ∉ s := fun e => h (List.mem_cons_of_mem _ e)
    have ih2 := ih hs
    simp only [List.splitOn] at ih2 ⊢
    rw [List.splitOnP_cons, ih2]
    simp [hx]

theorem splitOn_append_cons (c : Char) (a b : Str) (h : c ∉ a) :
    (a ++ c :: b).splitOn c = a :: b.splitOn c := by
  induction a with
  | nil => simp [List.splitOn, List.splitOnP_cons]
  | cons x a ih =>
    have hx : x ≠ c := fun e => h (by simp [e])
    have ha : c ∉ a := fun e => h (List.mem_cons_of_mem _ e)
    have ih2 := ih ha
    simp only [List.splitOn, List.cons_append] at ih2 ⊢
    rw [List.splitOnP_cons, ih2]
    simp [hx]

theorem splitOn_ne_nil (c : Char) (s : Str) : s.splitOn c ≠ [] := by
  simp [List.splitOn, List.splitOnP_ne_nil]


theorem getLastD_cons_of_ne_nil {α : Type} (a d : α) (l : List α) (h : l ≠ []) :
    (a :: l).getLastD d = l.getLastD d := by
  cases l with
  | nil => exact absurd rfl h
  | cons b l => simp [List.getLastD]

theorem getLastD_mem {α : Type} (d : α) (l : List α) (h : l ≠ []) : l.getLastD d ∈ l := by
  induction l with
  | nil => exact absurd rfl h
  | cons a l ih =>
    by_cases hl : l = []
    · subst hl
      simp [List.getLastD]
    · rw [getLastD_cons_of_ne_nil a d l hl]
      exact List.mem_cons_of_mem _ (ih hl)

theorem Path.split_path_fields_of_not_mem (s : Str) (h : '/' ∉ s) :
    Path.split_path_fields s = [s] := by
  simp [Path.split_path_fields, splitOn_of_not_mem _ _ h, List.getLastD]

theorem Path.split_path_fields_append_cons (a b : Str) (h : '/' ∉ a) :
    Path.split_path_fields (a ++ '/' :: b)
      = (if a ≠ [] then [a] else []) ++ Path.split_path_fields b := by
  have hne := splitOn_ne_nil '/' b
  unfold Path.split_path_fields
  rw [splitOn_append_cons _ _ _ h, List.dropLast_cons_of_ne_nil hne,
    getLastD_cons_of_ne_nil _ _ _ hne, List.filter_cons]
  by_cases ha : a = []
  · simp [ha]
  · have : a.isEmpty = false := by
      cases a with
      | nil => exact absurd rfl ha
      | cons x a => rfl
    simp [ha, this]

/-- The loop of `split_path` leaves before its bound: with more iterations allowed than
the path has characters it returns the parts collected so far followed by the fields of
the rest of the path. -/
theorem Path.split_path_loop_eq : ∀ (fuel : Nat) (path : Str) (parts : List Str),
    path.length < fuel →
    Path.split_path_loop fuel path parts = some (parts ++ Path.split_path_fields path) := by
  intro fuel
  induction fuel with
  | zero => intro path parts h; exact absurd h (Nat.not_lt_zero _)
  | succ fuel ih =>
    intro path parts hlen
    unfold Path.split_path_loop
    cases hf : find '/' path with
    | none =>
      simp only
      rw [Path.split_path_fields_of_not_mem _ (find_eq_none _ _ hf)]
    | some pos =>
      simp only
      obtain ⟨h1, h2, h3⟩ := find_eq_some _ _ _ hf
      have hshort : (path.drop (pos + 1)).length < fuel := by
        simp only [List.length_drop]
        omega
      rw [ih _ _ hshort]
      conv_rhs => rw [h1, Path.split_path_fields_append_cons _ _ h2]
      by_cases ha : path.take pos = []
      · simp [ha]
      · simp [ha]

/-- Induction over a path along its first separator, the way the loop consumes it. -/
theorem sep_induction (P : Str → Prop) (h0 : ∀ s, '/' ∉ s → P s)
    (h1 : ∀ a b, '/' ∉ a → P b → P (a ++ '/' :: b)) : ∀ s, P s := by
  suffices H : ∀ n, ∀ s : Str, s.length = n → P s from fun s => H _ s rfl
  intro n
  induction n using Nat.strong_induction_on with
  | _ n ih =>
    intro s hn
    cases hf : find '/' s with
    | none => exact h0 s (find_eq_none _ _ hf)
    | some pos =>
      obtain ⟨e1, e2, e3⟩ := find_eq_some _ _ _ hf
      rw [e1]
      refine h1 _ _ e2 (ih (s.drop (pos + 1)).length ?_ _ rfl)
      simp only [List.length_drop]
      omega

theorem splitOn_no_sep (s : Str) : ∀ seg ∈ s.splitOn '/', '/' ∉ seg := by
  refine sep_induction (fun s => ∀ seg ∈ s.splitOn '/', '/' ∉ seg) ?_ ?_ s
  · intro s h seg hseg
    rw [splitOn_of_not_mem _ _ h, List.mem_singleton] at hseg
    rw [hseg]
    exact h
  · intro a b ha ih seg hseg
    rw [splitOn_append_cons _ _ _ ha, List.mem_cons] at hseg
    rcases hseg with rfl | hseg
    · exact ha
    · exact ih seg hseg

theorem splitOn_last_empty (s : Str) :
    (s.splitOn '/').getLastD [] = [] ↔ s = [] ∨ s.getLast? = some '/' := by
  refine sep_induction
    (fun s => (s.splitOn '/').getLastD [] = [] ↔ s = [] ∨ s.getLast? = some '/') ?_ ?_ s
  · intro s h
    rw [splitOn_of_not_mem _ _ h]
    simp only [List.getLastD]
    constructor
    · intro e; exact Or.inl e
    · rintro (e | e)
      · exact e
      · exact absurd (List.mem_of_getLast?_eq_some e) h
  · intro a b ha ih
    rw [splitOn_append_cons _ _ _ ha, getLastD_cons_of_ne_nil _ _ _ (splitOn_ne_nil _ _), ih]
    have hlast : (a ++ '/' :: b).getLast? = ('/' :: b).getLast? :=
      List.getLast?_append_of_ne_nil _ (by simp)
    rw [hlast]
    by_cases hb : b = []
    · subst hb
      simp
    · rw [getLast?_cons_of_ne_nil _ _ hb]
      simp [hb]


theorem Path.split_path_fields_flatten (s : Str) :
    (Path.split_path_fields s).flatten = s.filter fun c => c != '/' := by
  refine sep_induction
    (fun s => (Path.split_path_fields s).flatten = s.filter fun c => c != '/') ?_ ?_ s
  · intro s h
    rw [Path.split_path_fields_of_not_mem _ h]
    have hall : ∀ c ∈ s, (c != '/') = true := by
      intro c hc
      simp only [bne_iff_ne, ne_eq]
      rintro rfl
      exact h hc
    simp [List.filter_eq_self.2 hall]
  · intro a b ha ih
    have hall : ∀ c ∈ a, (c != '/') = true := by
      intro c hc
      simp only [bne_iff_ne, ne_eq]
      rintro rfl
      exact ha hc
    rw [Path.split_path_fields_append_cons _ _ ha, List.flatten_append, ih, List.filter_append,
      List.filter_eq_self.2 hall]
    by_cases h0 : a = []
    · simp [h0]
    · simp [h0]

/-- C10, amended. `split_path` terminates on every input (its loop leaves within
`path.size() + 1` iterations) and returns, in order, the non-empty `/`-separated segments
that a `/` follows and then, always, the text after the last `/` (the whole path when it
has no `/`), even when that text is empty. No element contains `/`, every element but the
last is non-empty, the elements concatenate to the path without its `/` characters, and
the last element is empty exactly when the path is empty or ends with `/`. -/
theorem split_path_segments (path : Str) :
    Path.split_path path = some (Path.split_path_fields path) ∧
    (∀ fuel, path.length < fuel →
      Path.split_path_loop fuel path [] = some (Path.split_path_fields path)) ∧
    (∀ seg ∈ Path.split_path_fields path, '/' ∉ seg) ∧
    (∀ seg ∈ (Path.split_path_fields path).dropLast, seg ≠ []) ∧
    (Path.split_path_fields path).flatten = (path.filter fun c => c != '/') ∧
    ((Path.split_path_fields path).getLast? = some [] ↔
      path = [] ∨ path.getLast? = some '/') := by
  have hloop : ∀ fuel, path.length < fuel →
      Path.split_path_loop fuel path [] = some (Path.split_path_fields path) := by
    intro fuel h
    rw [Path.split_path_loop_eq fuel path [] h, List.nil_append]
  refine ⟨hloop _ (Nat.lt_succ_self _), hloop, ?_, ?_, Path.split_path_fields_flatten path, ?_⟩
  · intro seg hseg
    simp only [Path.split_path_fields, List.mem_append, List.mem_filter,
      List.mem_singleton] at hseg
    rcases hseg with ⟨h, _⟩ | rfl
    · exact splitOn_no_sep path seg (List.mem_of_mem_dropLast h)
    · exact splitOn_no_sep path _ (getLastD_mem _ _ (splitOn_ne_nil _ _))
  · intro seg hseg
    simp only [Path.split_path_fields, List.dropLast_concat, List.mem_filter] at hseg
    intro h0
    rw [h0] at hseg
    simp at hseg
  · simp only [Path.split_path_fields, List.getLast?_concat, Option.some.injEq]
    exact splitOn_last_empty path

/-- C10 on the path `/a//b/c`, with 8 iterations allowed: the empty segments before the
last are dropped. -/
theorem split_path_segments_witness :
    Path.split_path_loop 8 "/a//b/c".toList [] = some ["a".toList, "b".toList, "c".toList] :=
  ((split_path_segments "/a//b/c".toList).2.1 8 (by decide)).trans (by decide)

/-- C10 as stated fails: the non-empty path `a/` yields `["a", ""]`, which contains an
empty string, and the non-empty path `/` yields `[""]` as the empty path does. -/
theorem split_path_keeps_empty_last :
    "a/".toList ≠ [] ∧ Path.split_path "a/".toList = some ["a".toList, []] ∧
    "/".toList ≠ [] ∧ Path.split_path "/".toList = some [[]] ∧
    Path.split_path [] = some [[]] := by
  decide

end esphome.sd_file_server
